import Mathlib

/-!
Verification of the `talk_base::UnixFilesystem` adapter
(`talk/base/unixfilesystem.cc`, Linux branch) against its specification.

The filesystem is modelled as a finite map from resolved component lists to
nodes (directories or files with byte content), together with a device map
used to decide cross-device renames.  POSIX primitives (`stat`, `mkdir`,
`unlink`, `rmdir`, `rename`, `fopen`) are modelled as total functions on this
world returning `Except Errno`.  The adapter operations are translated from
the source; every definition is structural so that concrete inputs evaluate
by `decide`.
-/

set_option maxRecDepth 8000

namespace UnixFS

/-- Bytes of file content. -/
abbrev Byte := Nat

/-- A raw pathname string, as the character list of the C++ `std::string`. -/
abbrev Path := List Char

/-- One pathname component (text between separators). -/
abbrev Comp := List Char

/-- A resolved location: the list of components from the root. -/
abbrev Key := List Comp

/-- A filesystem node: a directory or a file with its byte content. -/
inductive Node where
  | dir : Node
  | file : List Byte → Node
deriving DecidableEq, Repr

/-- Whether a node is a directory (the `S_ISDIR` test on `st_mode`). -/
def Node.isDir : Node → Bool
  | .dir => true
  | .file _ => false

/-- The OS error codes distinguished by the source file. -/
inductive Errno where
  | ENOENT | ENOTDIR | EEXIST | EXDEV | EISDIR | EINVAL | EOTHER
deriving DecidableEq, Repr

deriving instance DecidableEq for Except

/-- Mutating OS primitives invoked by an operation, in order. -/
inductive OSCall where
  | mkdir : Path → OSCall
  | unlink : Path → OSCall
  | rmdir : Path → OSCall
  | rename : Path → Path → OSCall
  | openW : Path → OSCall
deriving DecidableEq, Repr

/-- The filesystem state: nodes keyed by resolved component lists, and the
device id of each top-level entry (used for the `EXDEV` check). The root
itself is always an implicit directory. -/
structure World where
  nodes : List (Key × Node)
  devs : List (Comp × Nat)
deriving DecidableEq, Repr

/-- Result of a mutating adapter operation: the returned boolean, the world
after the call, the mutating OS primitives invoked, and whether a debug-build
`ASSERT` fired on the way (release builds continue and return the boolean). -/
structure MutRes where
  ok : Bool
  world : World
  calls : List OSCall
  assertFailed : Bool
deriving DecidableEq, Repr

/-- Split a pathname into components, dropping empty components (so leading,
trailing and doubled separators are ignored, as in POSIX resolution). -/
def splitCompsAux : List Char → List Char → List Comp
  | [], cur => if cur = [] then [] else [cur.reverse]
  | c :: rest, cur =>
    if c = '/' then
      if cur = [] then splitCompsAux rest []
      else cur.reverse :: splitCompsAux rest []
    else splitCompsAux rest (c :: cur)

/-- Components of a pathname. -/
def splitComps (p : Path) : Key := splitCompsAux p []

/-- Whether the pathname ends with the separator. -/
def endsSlash (p : Path) : Bool := decide (p.getLast? = some '/')

/-- Boolean prefix test on component lists. -/
def keyBelow : Key → Key → Bool
  | [], _ => true
  | _ :: _, [] => false
  | a :: as, b :: bs => if a = b then keyBelow as bs else false

/-- First node stored under a key, if any. -/
def lookupKey : List (Key × Node) → Key → Option Node
  | [], _ => none
  | e :: t, k => if e.1 = k then some e.2 else lookupKey t k

/-- Remove every entry stored under a key. -/
def eraseEntries (k : Key) : List (Key × Node) → List (Key × Node)
  | [] => []
  | e :: t => if e.1 = k then eraseEntries k t else e :: eraseEntries k t

/-- Node at a key; the empty key is the root, always a directory. -/
def findNode (w : World) (k : Key) : Option Node :=
  if k = [] then some .dir else lookupKey w.nodes k

/-- World with the node at `k` replaced (or created). -/
def setNode (w : World) (k : Key) (nd : Node) : World :=
  { w with nodes := (k, nd) :: eraseEntries k w.nodes }

/-- World with the node at `k` removed. -/
def eraseNode (w : World) (k : Key) : World :=
  { w with nodes := eraseEntries k w.nodes }

/-- Device id of the filesystem holding a key (by top-level component). -/
def lookupDev : List (Comp × Nat) → Comp → Nat
  | [], _ => 0
  | e :: t, c => if e.1 = c then e.2 else lookupDev t c

/-- Device id of a key. -/
def devOf (w : World) (k : Key) : Nat :=
  match k with
  | [] => 0
  | c :: _ => lookupDev w.devs c

/-- Entries whose key extends `oc`, re-rooted at `nc` (the moved subtree). -/
def remapEntries (oc nc : Key) : List (Key × Node) → List (Key × Node)
  | [] => []
  | e :: t =>
    if keyBelow oc e.1 then (nc ++ e.1.drop oc.length, e.2) :: remapEntries oc nc t
    else remapEntries oc nc t

/-- Entries that survive a rename: neither in the moved subtree nor in the
replaced target subtree. -/
def keepEntries (oc nc : Key) : List (Key × Node) → List (Key × Node)
  | [] => []
  | e :: t =>
    if keyBelow oc e.1 || keyBelow nc e.1 then keepEntries oc nc t
    else e :: keepEntries oc nc t

/-- World after the subtree at `oc` is moved onto `nc`. -/
def moveTree (w : World) (oc nc : Key) : World :=
  { w with nodes := keepEntries oc nc w.nodes ++ remapEntries oc nc w.nodes }

/-- Whether some entry lies strictly below `k` (a nonempty directory test). -/
def hasDescB (w : World) (k : Key) : Bool :=
  w.nodes.any (fun e => keyBelow k e.1 && decide (e.1 ≠ k))

/-- Walk the components of a path from the already-resolved prefix `pre`:
every intermediate node must be a directory (`ENOTDIR` if a file is hit,
`ENOENT` if something is missing), and the final node is returned. -/
def resolveAux (w : World) (pre : Key) : Key → Except Errno Node
  | [] =>
    match findNode w pre with
    | some nd => .ok nd
    | none => .error .ENOENT
  | c :: rs =>
    match findNode w pre with
    | some .dir => resolveAux w (pre ++ [c]) rs
    | some (.file _) => .error .ENOTDIR
    | none => .error .ENOENT

/-- Resolve a component list from the root. -/
def resolve (w : World) (comps : Key) : Except Errno Node := resolveAux w [] comps

/-- Model of `::stat`: resolves the path; a pathname with a trailing
separator additionally requires the final node to be a directory. -/
def statP (w : World) (p : Path) : Except Errno Node :=
  if p = [] then .error .ENOENT
  else
    match resolve w (splitComps p) with
    | .error e => .error e
    | .ok nd =>
      if endsSlash p then
        match nd with
        | .dir => .ok .dir
        | .file _ => .error .ENOTDIR
      else .ok nd

/-- Model of `::mkdir(path, 0755)`: the parent must resolve to a directory
and the target must not exist. -/
def mkdirP (w : World) (p : Path) : Except Errno World :=
  if p = [] then .error .ENOENT
  else
    let comps := splitComps p
    if comps = [] then .error .EEXIST
    else
      match resolve w comps.dropLast with
      | .error e => .error e
      | .ok (.file _) => .error .ENOTDIR
      | .ok .dir =>
        match findNode w comps with
        | some _ => .error .EEXIST
        | none => .ok (setNode w comps .dir)

/-- Model of `::unlink`: the path must resolve to a file (never a
directory), and a trailing separator on a file path fails resolution. -/
def unlinkP (w : World) (p : Path) : Except Errno World :=
  if p = [] then .error .ENOENT
  else if endsSlash p then .error .ENOTDIR
  else
    match resolve w (splitComps p) with
    | .error e => .error e
    | .ok .dir => .error .EISDIR
    | .ok (.file _) => .ok (eraseNode w (splitComps p))

/-- Model of `::rmdir`: the path must resolve to an empty directory. -/
def rmdirP (w : World) (p : Path) : Except Errno World :=
  if p = [] then .error .ENOENT
  else
    let comps := splitComps p
    if comps = [] then .error .EOTHER
    else
      match resolve w comps with
      | .error e => .error e
      | .ok (.file _) => .error .ENOTDIR
      | .ok .dir =>
        if hasDescB w comps then .error .EOTHER
        else .ok (eraseNode w comps)

/-- Model of `::rename`: both parents are looked up first, then the
cross-device check, then target compatibility; on success the source
subtree is moved onto the target (replacing a plain-file target). Renaming
a path to itself succeeds and changes nothing, as POSIX requires. -/
def renameP (w : World) (o n : Path) : Except Errno World :=
  if o = [] ∨ n = [] then .error .ENOENT
  else
    let oc := splitComps o
    let nc := splitComps n
    if oc = [] ∨ nc = [] then .error .EOTHER
    else
      match resolve w oc with
      | .error e => .error e
      | .ok onode =>
        if endsSlash o ∧ onode.isDir = false then .error .ENOTDIR
        else
          match resolve w nc.dropLast with
          | .error e => .error e
          | .ok (.file _) => .error .ENOTDIR
          | .ok .dir =>
            if devOf w oc ≠ devOf w nc then .error .EXDEV
            else if oc = nc then .ok w
            else if keyBelow oc nc then .error .EINVAL
            else
              match findNode w nc with
              | some .dir =>
                if onode.isDir = false then .error .EISDIR
                else if hasDescB w nc then .error .EOTHER
                else .ok (moveTree w oc nc)
              | some (.file _) =>
                if onode.isDir then .error .ENOTDIR
                else if endsSlash n then .error .ENOTDIR
                else .ok (moveTree w oc nc)
              | none =>
                if endsSlash n ∧ onode.isDir = false then .error .ENOTDIR
                else .ok (moveTree w oc nc)

/-- Model of `OpenFile(path, "rb")` on a `FileStream`: yields the byte
content the read stream will deliver, or `none` when the open fails. -/
def openRead (w : World) (p : Path) : Option (List Byte) :=
  match statP w p with
  | .ok (.file c) => some c
  | _ => none

/-- Model of `OpenFile(path, "wb")`: creates or truncates the file; fails on
a directory, a trailing separator, or a missing or non-directory parent. -/
def openWrite (w : World) (p : Path) : Except Errno World :=
  if p = [] then .error .ENOENT
  else if endsSlash p then .error .EISDIR
  else
    let comps := splitComps p
    match resolve w comps.dropLast with
    | .error e => .error e
    | .ok (.file _) => .error .ENOTDIR
    | .ok .dir =>
      match findNode w comps with
      | some .dir => .error .EISDIR
      | _ => .ok (setNode w comps (.file []))

/-- Content of the file a path resolves to, if any. -/
def fileContent (w : World) (p : Path) : Option (List Byte) :=
  match statP w p with
  | .ok (.file c) => some c
  | _ => none

/-- `UnixFilesystem::IsFolder`: one stat call, then `S_ISDIR`. -/
def IsFolder (w : World) (p : Path) : Bool :=
  match statP w p with
  | .ok .dir => true
  | _ => false

/-- `UnixFilesystem::IsFile`: stat succeeded and the node is not a
directory (symlinks, pipes and other non-directory nodes count as files). -/
def IsFile (w : World) (p : Path) : Bool :=
  match statP w p with
  | .ok (.file _) => true
  | _ => false

/-- `UnixFilesystem::IsAbsent`: stat failed with exactly `ENOENT`
(`ENOTDIR` is deliberately kept as an error). -/
def IsAbsent (w : World) (p : Path) : Bool :=
  match statP w p with
  | .error .ENOENT => true
  | _ => false

/-- The loop condition `pathname[len - 1] != '/'` of `CreateFolder`. -/
def notSlash (c : Char) : Bool := if c = '/' then false else true

/-- The parent prefix computed by the `do --len while` loop in
`CreateFolder`: the pathname truncated just after the separator that
precedes the final (separator-terminated) component. -/
def parentPath (p : Path) : Path :=
  (((p.reverse).drop 1).dropWhile notSlash).reverse

/-- `UnixFilesystem::CreateFolder`, with explicit recursion fuel: fails
unless the pathname is nonempty and separator-terminated; if a node exists
it succeeds exactly when that node is a directory; on `ENOENT` it recurses
on the parent prefix and then calls `mkdir`. Fuel larger than the pathname
length never runs out (proved below). -/
def CreateFolderF : Nat → World → Path → MutRes
  | 0, w, _ => ⟨false, w, [], false⟩
  | fuel + 1, w, p =>
    if p = [] ∨ p.getLast? ≠ some '/' then ⟨false, w, [], false⟩
    else
      match statP w p with
      | .ok nd => ⟨nd.isDir, w, [], false⟩
      | .error e =>
        if e ≠ .ENOENT then ⟨false, w, [], false⟩
        else
          let r := CreateFolderF fuel w (parentPath p)
          if r.ok then
            match mkdirP r.world p with
            | .ok w2 => ⟨true, w2, r.calls ++ [.mkdir p], false⟩
            | .error _ => ⟨false, r.world, r.calls ++ [.mkdir p], false⟩
          else ⟨false, r.world, r.calls, false⟩

/-- `UnixFilesystem::CreateFolder` (the `EnsureFolder` operation). -/
def CreateFolder (w : World) (p : Path) : MutRes :=
  CreateFolderF (p.length + 1) w p

/-- `UnixFilesystem::DeleteFile`: precondition-checked delegation to
`unlink`; a non-file argument trips the debug `ASSERT` and fails. -/
def DeleteFile (w : World) (p : Path) : MutRes :=
  if IsFile w p then
    match unlinkP w p with
    | .ok w2 => ⟨true, w2, [.unlink p], false⟩
    | .error _ => ⟨false, w, [.unlink p], false⟩
  else ⟨false, w, [], true⟩

/-- `UnixFilesystem::DeleteEmptyFolder`: precondition-checked delegation to
`rmdir` on the pathname with its final character stripped. -/
def DeleteEmptyFolder (w : World) (p : Path) : MutRes :=
  if IsFolder w p then
    match rmdirP w p.dropLast with
    | .ok w2 => ⟨true, w2, [.rmdir p.dropLast], false⟩
    | .error _ => ⟨false, w, [.rmdir p.dropLast], false⟩
  else ⟨false, w, [], true⟩

/-- Modelled from the spec: the `StreamInterface` copy loop of `CopyFile`
(`stream.cc` is not part of this repository). The source stream reads
chunks of at most 256 bytes, reporting success while bytes remain; each
chunk is written to the destination and the write status is ignored, so a
chunk whose write fails (`faults` holds at its index) is silently dropped.
Returns the bytes the destination actually received. Fuel larger than the
content length never runs out. -/
def copyLoopF (faults : Nat → Bool) : Nat → List Byte → Nat → List Byte
  | 0, _, _ => []
  | _ + 1, [], _ => []
  | fuel + 1, b :: t, idx =>
    (if faults idx then [] else (b :: t).take 256) ++
      copyLoopF faults fuel ((b :: t).drop 256) (idx + 1)

/-- The destination bytes produced by the copy loop. -/
def copyLoop (faults : Nat → Bool) (content : List Byte) : List Byte :=
  copyLoopF faults (content.length + 1) content 0

/-- `UnixFilesystem::CopyFile`, generalized by which chunk writes fail:
opens the source for reading and the destination for writing, runs the copy
loop, and returns success whenever both opens succeeded. -/
def CopyFileW (faults : Nat → Bool) (w : World) (o n : Path) : MutRes :=
  match openRead w o with
  | none => ⟨false, w, [], false⟩
  | some content =>
    match openWrite w n with
    | .error _ => ⟨false, w, [.openW n], false⟩
    | .ok w1 =>
      ⟨true, setNode w1 (splitComps n) (.file (copyLoop faults content)),
        [.openW n], false⟩

/-- `UnixFilesystem::CopyFile` on a healthy device (no write faults). -/
def CopyFile (w : World) (o n : Path) : MutRes :=
  CopyFileW (fun _ => false) w o n

/-- `UnixFilesystem::MoveFile`: precondition-checked (`IsFile`); attempts
`rename`; on failure returns false unless the error is `EXDEV`, in which
case it falls back to `CopyFile` followed by `DeleteFile`. -/
def MoveFile (w : World) (o n : Path) : MutRes :=
  if IsFile w o then
    match renameP w o n with
    | .ok w2 => ⟨true, w2, [.rename o n], false⟩
    | .error e =>
      if e = .EXDEV then
        let c := CopyFile w o n
        if c.ok then
          let d := DeleteFile c.world o
          ⟨d.ok, d.world, .rename o n :: (c.calls ++ d.calls), d.assertFailed⟩
        else ⟨false, c.world, .rename o n :: c.calls, c.assertFailed⟩
      else ⟨false, w, [.rename o n], false⟩
  else ⟨false, w, [], true⟩

/-- Boolean prefix test on character lists (the `strncmp` check of
`IsTemporaryPath`). -/
def charsPre : List Char → List Char → Bool
  | [], _ => true
  | _ :: _, [] => false
  | a :: as, b :: bs => if a = b then charsPre as bs else false

/-- `UnixFilesystem::IsTemporaryPath` (Linux branch): the pathname starts
with one of the fixed temporary-directory prefixes. -/
def IsTemporaryPath (p : Path) : Bool :=
  charsPre "/tmp/".toList p || charsPre "/var/tmp/".toList p

/-- Modelled from the spec: the `Pathname` collaborator (`pathutils` is not
part of this repository), holding a separator-terminated folder part and a
leaf name; `pathname()` is their concatenation. -/
structure Pathname where
  folder : Path
  fname : Path
deriving DecidableEq, Repr

/-- The full pathname string of a `Pathname`. -/
def Pathname.str (pn : Pathname) : Path := pn.folder ++ pn.fname

/-- Modelled from the spec: folder strings are separator-terminated, so a
missing final separator is appended. -/
def ensureSlash (f : Path) : Path :=
  if f = [] ∨ f.getLast? = some '/' then f else f ++ ['/']

/-- Modelled from the spec: `Pathname::SetPathname(folder, filename)`. -/
def setPathnameFF (folder fname : Path) : Pathname :=
  ⟨ensureSlash folder, fname⟩

/-- Modelled from the spec: `Pathname::AppendFolder`. -/
def appendFolderP (pn : Pathname) (seg : Path) : Pathname :=
  ⟨pn.folder ++ ensureSlash seg, pn.fname⟩

/-- Modelled from the spec: the one-argument `Pathname::SetPathname`, whose
`pathname()` round-trips to the given string. -/
def setPathname1 (s : Path) : Pathname := ⟨s, []⟩

/-- The environment variables `GetTemporaryFolder` consults on Linux. -/
structure Env where
  tmpdir : Option Path
  tmp : Option Path
deriving DecidableEq, Repr

/-- Result of `GetTemporaryFolder` and friends: success flag, the pathname
out-parameter, and the world and mutating calls of any folder creation. -/
structure TmpRes where
  ok : Bool
  path : Pathname
  world : World
  calls : List OSCall
deriving DecidableEq, Repr

/-- `UnixFilesystem::GetTemporaryFolder` (Linux branch): `TMPDIR`, else
`TMP`, else the `P_tmpdir` constant `/tmp`; optionally appends a folder
segment, and when `create` is set ensures the folder exists. -/
def GetTemporaryFolder (env : Env) (w : World) (create : Bool)
    (append : Option Path) : TmpRes :=
  let base : Pathname :=
    match env.tmpdir with
    | some t => setPathnameFF t []
    | none =>
      match env.tmp with
      | some t => setPathnameFF t []
      | none => setPathnameFF "/tmp".toList []
  let pn : Pathname :=
    match append with
    | some s => appendFolderP base s
    | none => base
  if create then
    let r := CreateFolder w pn.str
    ⟨r.ok, pn, r.world, r.calls⟩
  else ⟨true, pn, w, []⟩

/-- Result of `GetAppTempFolder`: success flag, the pathname out-parameter,
the process-wide `app_temp_path_` cache after the call, and the world. -/
structure AppRes where
  ok : Bool
  path : Pathname
  cache : Path
  world : World
deriving DecidableEq, Repr

/-- `UnixFilesystem::GetAppTempFolder`: returns the process-wide cached
path when the cache is nonempty; otherwise generates
`<appname>-<pid>-<timestamp>`, creates it under the temporary folder, and
stores the result in the cache. -/
def GetAppTempFolder (appName : Path) (pid tmv : Nat) (cache : Path)
    (env : Env) (w : World) : AppRes :=
  if cache ≠ [] then ⟨true, setPathname1 cache, cache, w⟩
  else
    let folder := appName ++ ('-' :: Nat.toDigits 10 pid)
      ++ ('-' :: Nat.toDigits 10 tmv)
    let r := GetTemporaryFolder env w true (some folder)
    if r.ok then ⟨true, r.path, r.path.str, r.world⟩
    else ⟨false, r.path, cache, r.world⟩

/-- A world holding one file `a`. -/
def exFileA : World := ⟨[([['a']], .file [0])], []⟩

/-- A world holding one directory `d`. -/
def exDirD : World := ⟨[([['d']], .dir)], []⟩

/-- A world holding the directory `/tmp`. -/
def exTmp : World := ⟨[([['t', 'm', 'p']], .dir)], []⟩

/-- A world with file `a` on device 0 and directory `b` on device 1. -/
def exTwoDev : World :=
  ⟨[([['a']], .file [9, 9]), ([['b']], .dir)], [(['a'], 0), (['b'], 1)]⟩

/-- A world with a 300-byte file `a` (more than one 256-byte chunk) and a
directory `b`. -/
def exCopySrc : World :=
  ⟨[([['a']], .file (List.replicate 300 7)), ([['b']], .dir)], []⟩

/-- An environment with neither `TMPDIR` nor `TMP` set. -/
def envNone : Env := ⟨none, none⟩

/-- An environment pointing `TMPDIR` at a non-temporary location. -/
def envHome : Env := ⟨some "/home/user/mytmp".toList, none⟩

section Lemmas

theorem keyBelow_refl (k : Key) : keyBelow k k = true := by
  induction k with
  | nil => rfl
  | cons a t ih => simp [keyBelow, ih]

theorem keyBelow_iff {p q : Key} : keyBelow p q = true ↔ ∃ r, q = p ++ r := by
  induction p generalizing q with
  | nil => simp [keyBelow]
  | cons a t ih =>
    cases q with
    | nil =>
      simp only [keyBelow]
      constructor
      · intro h; exact absurd h (by simp)
      · rintro ⟨r, hr⟩; exact absurd hr (by simp)
    | cons b s =>
      by_cases hab : a = b
      · subst hab
        have hk : keyBelow (a :: t) (a :: s) = keyBelow t s := by
          simp [keyBelow]
        rw [hk, ih]
        constructor
        · rintro ⟨r, rfl⟩; exact ⟨r, rfl⟩
        · rintro ⟨r, hr⟩
          injection hr with h1 h2
          exact ⟨r, h2⟩
      · simp only [keyBelow, if_neg hab]
        constructor
        · intro h; exact absurd h (by simp)
        · rintro ⟨r, hr⟩
          injection hr with h1 h2
          exact absurd h1.symm hab

theorem keyBelow_append (p r : Key) : keyBelow p (p ++ r) = true :=
  keyBelow_iff.mpr ⟨r, rfl⟩

theorem keyBelow_trans {p q r : Key} (h1 : keyBelow p q = true)
    (h2 : keyBelow q r = true) : keyBelow p r = true := by
  rcases keyBelow_iff.mp h1 with ⟨s, rfl⟩
  rcases keyBelow_iff.mp h2 with ⟨t, rfl⟩
  simpa [List.append_assoc] using keyBelow_append p (s ++ t)

theorem keyBelow_length {p q : Key} (h : keyBelow p q = true) :
    p.length ≤ q.length := by
  rcases keyBelow_iff.mp h with ⟨r, rfl⟩
  simp

theorem keyBelow_antisymm {p q : Key} (h1 : keyBelow p q = true)
    (h2 : keyBelow q p = true) : p = q := by
  rcases keyBelow_iff.mp h1 with ⟨r, rfl⟩
  have hl := keyBelow_length h2
  rw [List.length_append] at hl
  have : r = [] := List.eq_nil_of_length_eq_zero (by omega)
  simp [this]

theorem keyBelow_cancel (x a b : Key) :
    keyBelow (x ++ a) (x ++ b) = keyBelow a b := by
  induction x with
  | nil => rfl
  | cons c t ih => simp [keyBelow, ih]

theorem keyBelow_dropLast {p q : Key} (h : keyBelow p q = true) (hne : p ≠ q) :
    keyBelow p q.dropLast = true := by
  rcases keyBelow_iff.mp h with ⟨r, rfl⟩
  have hr : r ≠ [] := by rintro rfl; simp at hne
  rw [List.dropLast_append_of_ne_nil p hr]
  exact keyBelow_append p r.dropLast

theorem keyBelow_not_of_lt {p q : Key} (h : q.length < p.length) :
    keyBelow p q = false := by
  cases hk : keyBelow p q
  · rfl
  · exact absurd (keyBelow_length hk) (by omega)

theorem lookupKey_erase (l : List (Key × Node)) (k q : Key) :
    lookupKey (eraseEntries k l) q = if q = k then none else lookupKey l q := by
  induction l with
  | nil => simp [eraseEntries, lookupKey]
  | cons e t ih =>
    simp only [eraseEntries, lookupKey]
    by_cases hek : e.1 = k
    · simp only [if_pos hek, ih]
      by_cases hqk : q = k
      · simp [hqk]
      · have hne : e.1 ≠ q := fun h => hqk (by rw [← h, hek])
        simp [hqk, hne]
    · simp only [if_neg hek, lookupKey]
      by_cases heq : e.1 = q
      · have hqk : q ≠ k := fun h => hek (by rw [heq, h])
        simp [heq, hqk]
      · simp [heq, ih]

theorem findNode_setNode_self (w : World) {k : Key} (hk : k ≠ []) (nd : Node) :
    findNode (setNode w k nd) k = some nd := by
  simp [findNode, setNode, hk, lookupKey]

theorem findNode_setNode_other (w : World) {k q : Key} (h : q ≠ k) (nd : Node) :
    findNode (setNode w k nd) q = findNode w q := by
  by_cases hq : q = []
  · simp [findNode, hq]
  · simp [findNode, setNode, hq, lookupKey, Ne.symm h, lookupKey_erase, h]

theorem findNode_erase_self (w : World) {k : Key} (hk : k ≠ []) :
    findNode (eraseNode w k) k = none := by
  simp [findNode, eraseNode, hk, lookupKey_erase]

theorem findNode_erase_other (w : World) {k q : Key} (h : q ≠ k) :
    findNode (eraseNode w k) q = findNode w q := by
  by_cases hq : q = []
  · simp [findNode, hq]
  · simp [findNode, eraseNode, hq, lookupKey_erase, h]

theorem lookupKey_keep (l : List (Key × Node)) {oc nc q : Key}
    (ho : keyBelow oc q = false) (hn : keyBelow nc q = false) :
    lookupKey (keepEntries oc nc l) q = lookupKey l q := by
  induction l with
  | nil => simp [keepEntries]
  | cons e t ih =>
    simp only [keepEntries, lookupKey]
    by_cases hk : keyBelow oc e.1 || keyBelow nc e.1
    · rw [if_pos hk]
      have hne : e.1 ≠ q := by
        rintro rfl
        rcases Bool.or_eq_true_iff.mp hk with h | h
        · rw [h] at ho; cases ho
        · rw [h] at hn; cases hn
      simp [hne, ih]
    · rw [if_neg hk]
      simp only [lookupKey]
      by_cases heq : e.1 = q
      · simp [heq]
      · simp [heq, ih]

theorem lookupKey_keep_below (l : List (Key × Node)) {oc nc q : Key}
    (h : keyBelow oc q = true ∨ keyBelow nc q = true) :
    lookupKey (keepEntries oc nc l) q = none := by
  induction l with
  | nil => simp [keepEntries, lookupKey]
  | cons e t ih =>
    simp only [keepEntries]
    by_cases hk : keyBelow oc e.1 || keyBelow nc e.1
    · rw [if_pos hk]; exact ih
    · rw [if_neg hk]
      simp only [lookupKey]
      have hne : e.1 ≠ q := by
        rintro rfl
        rcases h with h | h <;> simp [h] at hk
      simp [hne, ih]

theorem lookupKey_remap_none (l : List (Key × Node)) {oc nc q : Key}
    (hn : keyBelow nc q = false) :
    lookupKey (remapEntries oc nc l) q = none := by
  induction l with
  | nil => simp [remapEntries, lookupKey]
  | cons e t ih =>
    simp only [remapEntries]
    by_cases hk : keyBelow oc e.1
    · rw [if_pos hk]
      simp only [lookupKey]
      have hne : nc ++ e.1.drop oc.length ≠ q := by
        rintro rfl
        rw [keyBelow_append] at hn; cases hn
      simp [hne, ih]
    · rw [if_neg hk]; exact ih

theorem lookupKey_remap_at (l : List (Key × Node)) (oc nc : Key) :
    lookupKey (remapEntries oc nc l) nc = lookupKey l oc := by
  induction l with
  | nil => simp [remapEntries, lookupKey]
  | cons e t ih =>
    simp only [remapEntries]
    by_cases hk : keyBelow oc e.1
    · rw [if_pos hk]
      simp only [lookupKey]
      rcases keyBelow_iff.mp hk with ⟨r, hr⟩
      by_cases hro : r = []
      · subst hro
        have he : e.1 = oc := by simpa using hr
        simp [hr, he, List.drop_left]
      · have hne1 : nc ++ e.1.drop oc.length ≠ nc := by
          rw [hr, List.drop_left]
          simp [hro]
        have hne2 : e.1 ≠ oc := by
          rw [hr]
          simpa using fun h => hro (by simpa using congrArg List.length h)
        simp [hne1, hne2, ih]
    · rw [if_neg hk]
      have hne : e.1 ≠ oc := by
        rintro rfl
        exact hk (keyBelow_refl e.1)
      simp only [lookupKey]
      simp [hne, ih]

theorem lookupKey_append (l1 l2 : List (Key × Node)) (q : Key) :
    lookupKey (l1 ++ l2) q =
      match lookupKey l1 q with
      | some nd => some nd
      | none => lookupKey l2 q := by
  induction l1 with
  | nil => simp [lookupKey]
  | cons e t ih =>
    simp only [List.cons_append, lookupKey]
    by_cases heq : e.1 = q
    · simp [heq]
    · simp [heq, ih]

theorem findNode_moveTree_other (w : World) {oc nc q : Key}
    (ho : keyBelow oc q = false) (hn : keyBelow nc q = false) :
    findNode (moveTree w oc nc) q = findNode w q := by
  by_cases hq : q = []
  · simp [findNode, hq]
  · simp only [findNode, moveTree, hq, if_neg hq]
    rw [lookupKey_append, lookupKey_keep _ ho hn, lookupKey_remap_none _ hn]
    cases lookupKey w.nodes q <;> rfl

theorem findNode_moveTree_old (w : World) {oc nc : Key} (hoc : oc ≠ [])
    (hn : keyBelow nc oc = false) :
    findNode (moveTree w oc nc) oc = none := by
  simp only [findNode, moveTree, if_neg hoc]
  rw [lookupKey_append, lookupKey_keep_below _ (Or.inl (keyBelow_refl oc)),
    lookupKey_remap_none _ hn]

theorem findNode_moveTree_new (w : World) {oc nc : Key} (hnc : nc ≠ [])
    (hoc : oc ≠ []) :
    findNode (moveTree w oc nc) nc = findNode w oc := by
  simp only [findNode, moveTree, if_neg hnc, if_neg hoc]
  rw [lookupKey_append, lookupKey_keep_below _ (Or.inr (keyBelow_refl nc)),
    lookupKey_remap_at]

theorem resolveAux_congr {w' w : World} {pre rest : Key}
    (h : ∀ q, keyBelow pre q = true → keyBelow q (pre ++ rest) = true →
      findNode w' q = findNode w q) :
    resolveAux w' pre rest = resolveAux w pre rest := by
  induction rest generalizing pre with
  | nil =>
    simp only [resolveAux]
    rw [h pre (keyBelow_refl pre) (by simpa using keyBelow_refl pre)]
  | cons c rs ih =>
    simp only [resolveAux]
    rw [h pre (keyBelow_refl pre) (keyBelow_append pre (c :: rs))]
    cases hf : findNode w pre with
    | none => rfl
    | some nd =>
      cases nd with
      | file f => rfl
      | dir =>
        exact ih (fun q h1 h2 => h q
          (keyBelow_trans (keyBelow_append pre [c]) h1)
          (by simpa [List.append_assoc] using h2))

theorem resolveAux_snoc (w : World) (pre rs : Key) (c : Comp) :
    resolveAux w pre (rs ++ [c]) =
      match resolveAux w pre rs with
      | .ok .dir =>
        (match findNode w (pre ++ rs ++ [c]) with
         | some nd => .ok nd
         | none => .error .ENOENT)
      | .ok (.file _) => .error .ENOTDIR
      | .error e => .error e := by
  induction rs generalizing pre with
  | nil =>
    simp only [resolveAux, List.nil_append, List.append_nil]
    cases hf : findNode w pre with
    | none => rfl
    | some nd =>
      cases nd with
      | dir => simp only [resolveAux]
      | file f => rfl
  | cons r rs' ih =>
    simp only [List.cons_append, resolveAux]
    cases hf : findNode w pre with
    | none => rfl
    | some nd =>
      cases nd with
      | file f => rfl
      | dir =>
        dsimp only
        simp only [List.append_eq]
        rw [ih]
        have e1 : pre ++ [r] ++ rs' = pre ++ r :: rs' := by
          simp [List.append_assoc]
        rw [e1]

theorem resolveAux_pre_dir {w : World} {pre rest : Key} {nd : Node}
    (h : resolveAux w pre rest = .ok nd) :
    ∀ q, keyBelow pre q = true → keyBelow q (pre ++ rest) = true →
      q ≠ pre ++ rest → findNode w q = some .dir := by
  induction rest generalizing pre with
  | nil =>
    intro q h1 h2 h3
    rw [List.append_nil] at h2 h3
    exact absurd (keyBelow_antisymm h1 h2).symm h3
  | cons c rs ih =>
    intro q h1 h2 h3
    simp only [resolveAux] at h
    cases hf : findNode w pre with
    | none => rw [hf] at h; cases h
    | some nd' =>
      cases nd' with
      | file f => rw [hf] at h; cases h
      | dir =>
        rw [hf] at h
        dsimp only at h
        by_cases hq : q = pre
        · rw [hq]; exact hf
        · rcases keyBelow_iff.mp h1 with ⟨s, rfl⟩
          cases s with
          | nil => exact absurd (List.append_nil pre) hq
          | cons s0 s' =>
            have hcs : keyBelow (s0 :: s') (c :: rs) = true := by
              have h2' := h2
              rwa [keyBelow_cancel] at h2'
            have hs0 : s0 = c := by
              by_cases hcc : s0 = c
              · exact hcc
              · simp only [keyBelow, if_neg hcc] at hcs
                exact absurd hcs Bool.false_ne_true
            subst hs0
            have e1 : pre ++ s0 :: s' = (pre ++ [s0]) ++ s' := by
              simp [List.append_assoc]
            have e2 : (pre ++ [s0]) ++ rs = pre ++ s0 :: rs := by
              simp [List.append_assoc]
            refine ih h (pre ++ s0 :: s') ?_ ?_ ?_
            · rw [e1]; exact keyBelow_append _ _
            · rw [e2]; exact h2
            · intro hcon
              exact h3 (hcon.trans e2)

theorem resolve_congr {w' w : World} {comps : Key}
    (h : ∀ q, keyBelow q comps = true → findNode w' q = findNode w q) :
    resolve w' comps = resolve w comps :=
  resolveAux_congr (fun q _ h2 => h q h2)

theorem resolve_findNode_self {w : World} {k : Key} {nd : Node}
    (h : resolve w k = .ok nd) (hk : k ≠ []) : findNode w k = some nd := by
  rcases List.eq_nil_or_concat k with rfl | ⟨cs, c, rfl⟩
  · exact absurd rfl hk
  · rw [List.concat_eq_append] at h ⊢
    unfold resolve at h
    rw [resolveAux_snoc] at h
    cases hr : resolveAux w [] cs with
    | error e => rw [hr] at h; cases h
    | ok nd' =>
      cases nd' with
      | file f => rw [hr] at h; cases h
      | dir =>
        rw [hr] at h
        dsimp only at h
        cases hf : findNode w ([] ++ cs ++ [c]) with
        | none => rw [hf] at h; cases h
        | some nd2 =>
          rw [hf] at h
          dsimp only at h
          injection h with h
          rw [← h]
          simpa using hf

theorem resolve_nil (w : World) : resolve w [] = .ok .dir := by
  simp [resolve, resolveAux, findNode]

theorem resolve_ne_nil_of_file {w : World} {k : Key} {c : List Byte}
    (h : resolve w k = .ok (.file c)) : k ≠ [] := by
  rintro rfl
  rw [resolve_nil] at h
  cases h

theorem resolve_setNode_ne {w : World} {k comps : Key} (nd : Node)
    (h : keyBelow k comps = false) :
    resolve (setNode w k nd) comps = resolve w comps := by
  apply resolve_congr
  intro q hq
  have hne : q ≠ k := by
    rintro rfl
    rw [hq] at h; cases h
  exact findNode_setNode_other w hne nd

theorem resolve_erase_ne {w : World} {k comps : Key}
    (h : keyBelow k comps = false) :
    resolve (eraseNode w k) comps = resolve w comps := by
  apply resolve_congr
  intro q hq
  have hne : q ≠ k := by
    rintro rfl
    rw [hq] at h; cases h
  exact findNode_erase_other w hne

theorem resolve_snoc_dir {w : World} {cs : Key} {c : Comp}
    (h : resolve w cs = .ok .dir) :
    resolve w (cs ++ [c]) =
      (match findNode w (cs ++ [c]) with
       | some nd => .ok nd
       | none => .error .ENOENT) := by
  have h' : resolveAux w [] cs = .ok .dir := h
  unfold resolve
  rw [resolveAux_snoc, h']
  dsimp only
  simp only [List.nil_append]

theorem resolve_ok_dropLast {w : World} {k : Key} {nd : Node}
    (h : resolve w k = .ok nd) (hk : k ≠ []) :
    resolve w k.dropLast = .ok .dir := by
  rcases List.eq_nil_or_concat k with rfl | ⟨cs, c, rfl⟩
  · exact absurd rfl hk
  · rw [List.concat_eq_append] at h ⊢
    rw [List.dropLast_concat]
    unfold resolve at h
    rw [resolveAux_snoc] at h
    cases hr : resolveAux w [] cs with
    | error e => rw [hr] at h; cases h
    | ok nd' =>
      cases nd' with
      | file f => rw [hr] at h; cases h
      | dir => exact hr

theorem resolve_setNode_self {w : World} {k : Key} (nd : Node)
    (h : resolve w k.dropLast = .ok .dir) (hk : k ≠ []) :
    resolve (setNode w k nd) k = .ok nd := by
  rcases List.eq_nil_or_concat k with rfl | ⟨cs, c, rfl⟩
  · exact absurd rfl hk
  · rw [List.concat_eq_append] at h ⊢
    rw [List.dropLast_concat] at h
    have h1 : resolve (setNode w (cs ++ [c]) nd) cs = .ok .dir := by
      rw [resolve_setNode_ne nd (keyBelow_not_of_lt (by simp))]
      exact h
    rw [resolve_snoc_dir h1,
      findNode_setNode_self w (by simp) nd]

theorem resolve_erase_self {w : World} {k : Key} {nd : Node}
    (h : resolve w k = .ok nd) (hk : k ≠ []) :
    resolve (eraseNode w k) k = .error .ENOENT := by
  rcases List.eq_nil_or_concat k with rfl | ⟨cs, c, rfl⟩
  · exact absurd rfl hk
  · rw [List.concat_eq_append] at h ⊢
    have hdrop : resolve w cs = .ok .dir := by
      have := resolve_ok_dropLast h (by simp)
      rwa [List.dropLast_concat] at this
    have h1 : resolve (eraseNode w (cs ++ [c])) cs = .ok .dir := by
      rw [resolve_erase_ne (keyBelow_not_of_lt (by simp))]
      exact hdrop
    rw [resolve_snoc_dir h1,
      findNode_erase_self w (k := cs ++ [c]) (by simp)]

theorem resolve_moveTree_ne {w : World} {oc nc comps : Key}
    (ho : keyBelow oc comps = false) (hn : keyBelow nc comps = false) :
    resolve (moveTree w oc nc) comps = resolve w comps := by
  apply resolve_congr
  intro q hq
  refine findNode_moveTree_other w ?_ ?_
  · cases hoq : keyBelow oc q
    · rfl
    · rw [keyBelow_trans hoq hq] at ho; cases ho
  · cases hnq : keyBelow nc q
    · rfl
    · rw [keyBelow_trans hnq hq] at hn; cases hn

theorem resolve_moveTree_old {w : World} {oc nc : Key} {ond : Node}
    (h : resolve w oc = .ok ond) (hoc : oc ≠ [])
    (hn : keyBelow nc oc = false) :
    resolve (moveTree w oc nc) oc = .error .ENOENT := by
  rcases List.eq_nil_or_concat oc with rfl | ⟨cs, c, rfl⟩
  · exact absurd rfl hoc
  · rw [List.concat_eq_append] at h hn ⊢
    have hdrop : resolve w cs = .ok .dir := by
      have := resolve_ok_dropLast h (by simp)
      rwa [List.dropLast_concat] at this
    have h1 : resolve (moveTree w (cs ++ [c]) nc) cs = .ok .dir := by
      rw [resolve_moveTree_ne (keyBelow_not_of_lt (by simp)) ?_]
      · exact hdrop
      · cases hncs : keyBelow nc cs
        · rfl
        · rw [keyBelow_trans hncs (keyBelow_append cs [c])] at hn
          cases hn
    rw [resolve_snoc_dir h1,
      @findNode_moveTree_old w (cs ++ [c]) nc (by simp) hn]

theorem resolve_moveTree_new {w : World} {oc nc : Key} {ond : Node}
    (hpar : resolve w nc.dropLast = .ok .dir) (hnc : nc ≠ []) (hoc : oc ≠ [])
    (hon : keyBelow oc nc = false) (hno : keyBelow nc oc = false)
    (hfo : findNode w oc = some ond) :
    resolve (moveTree w oc nc) nc = .ok ond := by
  rcases List.eq_nil_or_concat nc with rfl | ⟨cs, c, rfl⟩
  · exact absurd rfl hnc
  · rw [List.concat_eq_append] at hpar hon hno ⊢
    rw [List.dropLast_concat] at hpar
    have h1 : resolve (moveTree w oc (cs ++ [c])) cs = .ok .dir := by
      rw [resolve_moveTree_ne ?_ (keyBelow_not_of_lt (by simp))]
      · exact hpar
      · cases hocs : keyBelow oc cs
        · rfl
        · rw [keyBelow_trans hocs (keyBelow_append cs [c])] at hon
          cases hon
    rw [resolve_snoc_dir h1,
      @findNode_moveTree_new w oc (cs ++ [c]) (by simp) hoc, hfo]

theorem statP_noslash {w : World} {p : Path} (hp : p ≠ [])
    (hs : endsSlash p = false) : statP w p = resolve w (splitComps p) := by
  simp only [statP, if_neg hp, hs]
  cases resolve w (splitComps p) with
  | error e => rfl
  | ok nd => simp

theorem IsFile_inv {w : World} {p : Path} (h : IsFile w p = true) :
    p ≠ [] ∧ endsSlash p = false ∧
      ∃ c, resolve w (splitComps p) = .ok (.file c) := by
  by_cases hp : p = []
  · rw [hp] at h
    simp [IsFile, statP] at h
  · refine ⟨hp, ?_⟩
    simp only [IsFile, statP, if_neg hp] at h
    cases hr : resolve w (splitComps p) with
    | error e => rw [hr] at h; cases h
    | ok nd =>
      rw [hr] at h
      cases hsl : endsSlash p with
      | true =>
        rw [hsl] at h
        cases nd <;> simp at h
      | false =>
        rw [hsl] at h
        cases nd with
        | dir => simp at h
        | file c => exact ⟨rfl, c, rfl⟩

theorem IsFile_of {w : World} {p : Path} {c : List Byte} (hp : p ≠ [])
    (hs : endsSlash p = false) (h : resolve w (splitComps p) = .ok (.file c)) :
    IsFile w p = true := by
  simp only [IsFile, statP_noslash hp hs, h]

theorem IsAbsent_of {w : World} {p : Path} (hp : p ≠ [])
    (hs : endsSlash p = false)
    (h : resolve w (splitComps p) = .error .ENOENT) : IsAbsent w p = true := by
  simp only [IsAbsent, statP_noslash hp hs, h]

theorem statP_ok_file_inv {w : World} {p : Path} {c : List Byte}
    (h : statP w p = .ok (.file c)) :
    p ≠ [] ∧ endsSlash p = false ∧
      resolve w (splitComps p) = .ok (.file c) := by
  by_cases hp : p = []
  · rw [hp] at h; simp [statP] at h
  · refine ⟨hp, ?_⟩
    simp only [statP, if_neg hp] at h
    cases hr : resolve w (splitComps p) with
    | error e => rw [hr] at h; cases h
    | ok nd =>
      rw [hr] at h
      cases hsl : endsSlash p with
      | true =>
        rw [hsl] at h
        cases nd <;> simp at h
      | false =>
        rw [hsl] at h
        simp only [Bool.false_eq_true, if_false] at h
        injection h with h
        exact ⟨rfl, by rw [h]⟩

theorem openRead_inv {w : World} {p : Path} {c : List Byte}
    (h : openRead w p = some c) : statP w p = .ok (.file c) := by
  simp only [openRead] at h
  cases hs : statP w p with
  | error e => rw [hs] at h; cases h
  | ok nd =>
    cases nd with
    | dir => rw [hs] at h; cases h
    | file c' =>
      rw [hs] at h
      injection h with h
      rw [h]

theorem openWrite_inv {w w1 : World} {p : Path}
    (h : openWrite w p = .ok w1) :
    p ≠ [] ∧ endsSlash p = false ∧
      resolve w (splitComps p).dropLast = .ok .dir ∧
      findNode w (splitComps p) ≠ some .dir ∧
      w1 = setNode w (splitComps p) (.file []) := by
  by_cases hp : p = []
  · rw [hp] at h; simp [openWrite] at h
  · simp only [openWrite, if_neg hp] at h
    cases hsl : endsSlash p with
    | true => rw [hsl] at h; simp at h
    | false =>
      rw [hsl] at h
      simp only [Bool.false_eq_true, if_false] at h
      refine ⟨hp, rfl, ?_⟩
      cases hr : resolve w (splitComps p).dropLast with
      | error e => rw [hr] at h; cases h
      | ok nd =>
        cases nd with
        | file f => rw [hr] at h; cases h
        | dir =>
          rw [hr] at h
          dsimp only at h
          refine ⟨rfl, ?_⟩
          cases hf : findNode w (splitComps p) with
          | none =>
            rw [hf] at h
            dsimp only at h
            injection h with h
            exact ⟨by simp [hf], h.symm⟩
          | some nd2 =>
            cases nd2 with
            | dir => rw [hf] at h; cases h
            | file f2 =>
              rw [hf] at h
              dsimp only at h
              injection h with h
              exact ⟨by simp [hf], h.symm⟩

theorem copyLoopF_nofault : ∀ (fuel : Nat) (rem : List Byte) (idx : Nat),
    rem.length < fuel → copyLoopF (fun _ => false) fuel rem idx = rem := by
  intro fuel
  induction fuel with
  | zero => intro rem idx h; omega
  | succ n ih =>
    intro rem idx h
    cases rem with
    | nil => rfl
    | cons b t =>
      simp only [copyLoopF, if_neg (by simp : ¬(false = true))]
      rw [ih ((b :: t).drop 256) (idx + 1) ?_]
      · exact List.take_append_drop 256 (b :: t)
      · rw [List.length_drop]
        simp only [List.length_cons] at h ⊢
        omega

theorem copyLoop_nofault (content : List Byte) :
    copyLoop (fun _ => false) content = content :=
  copyLoopF_nofault _ content 0 (Nat.lt_succ_self _)

theorem unlinkP_of_file {w : World} {p : Path} (h : IsFile w p = true) :
    unlinkP w p = .ok (eraseNode w (splitComps p)) := by
  obtain ⟨hp, hs, c, hr⟩ := IsFile_inv h
  simp only [unlinkP, if_neg hp, hs]
  rw [hr]
  simp

theorem DeleteFile_of_file {w : World} {p : Path} (h : IsFile w p = true) :
    DeleteFile w p = ⟨true, eraseNode w (splitComps p), [.unlink p], false⟩ := by
  simp only [DeleteFile, h, if_true, unlinkP_of_file h]

theorem renameP_ok_file {w w2 : World} {o n : Path} {cf : List Byte}
    (hof : resolve w (splitComps o) = .ok (.file cf))
    (hso : endsSlash o = false)
    (hne : splitComps o ≠ splitComps n)
    (h : renameP w o n = .ok w2) :
    w2 = moveTree w (splitComps o) (splitComps n) ∧
      resolve w ((splitComps n).dropLast) = .ok .dir ∧
      endsSlash n = false ∧ n ≠ [] ∧ splitComps n ≠ [] ∧
      keyBelow (splitComps o) (splitComps n) = false ∧
      keyBelow (splitComps n) (splitComps o) = false := by
  by_cases hg1 : o = [] ∨ n = []
  · rw [renameP, if_pos hg1] at h; cases h
  · rw [renameP, if_neg hg1] at h
    by_cases hg2 : splitComps o = [] ∨ splitComps n = []
    · rw [if_pos hg2] at h; cases h
    · rw [if_neg hg2] at h
      push_neg at hg1 hg2
      rw [hof] at h
      dsimp only at h
      rw [if_neg (fun hc => Bool.false_ne_true (hso ▸ hc.1))] at h
      cases hpar : resolve w (splitComps n).dropLast with
      | error e => rw [hpar] at h; cases h
      | ok pnd =>
        cases pnd with
        | file f => rw [hpar] at h; cases h
        | dir =>
          rw [hpar] at h
          dsimp only at h
          by_cases hdev : devOf w (splitComps o) ≠ devOf w (splitComps n)
          · rw [if_pos hdev] at h; cases h
          · rw [if_neg hdev, if_neg hne] at h
            by_cases hbel : keyBelow (splitComps o) (splitComps n) = true
            · rw [if_pos hbel] at h; cases h
            · have hon : keyBelow (splitComps o) (splitComps n) = false := by
                cases hk : keyBelow (splitComps o) (splitComps n)
                · rfl
                · exact absurd hk hbel
              rw [if_neg hbel] at h
              have hpd := resolveAux_pre_dir
                (show resolveAux w [] (splitComps o) = .ok (.file cf) from hof)
              cases hfn : findNode w (splitComps n) with
              | some nd2 =>
                cases nd2 with
                | dir =>
                  rw [hfn] at h
                  dsimp only [Node.isDir] at h
                  rw [if_pos rfl] at h
                  cases h
                | file f2 =>
                  rw [hfn] at h
                  dsimp only [Node.isDir] at h
                  rw [if_neg Bool.false_ne_true] at h
                  cases hsn : endsSlash n with
                  | true => rw [hsn] at h; rw [if_pos rfl] at h; cases h
                  | false =>
                    rw [hsn] at h
                    rw [if_neg Bool.false_ne_true] at h
                    injection h with h
                    refine ⟨h.symm, rfl, rfl, hg1.2, hg2.2, hon, ?_⟩
                    cases hk : keyBelow (splitComps n) (splitComps o)
                    · rfl
                    · have := hpd (splitComps n) rfl
                        (by simpa using hk) (by simpa using Ne.symm hne)
                      rw [hfn] at this; cases this
              | none =>
                rw [hfn] at h
                dsimp only [Node.isDir] at h
                by_cases hsn : endsSlash n = true
                · rw [if_pos ⟨hsn, rfl⟩] at h; cases h
                · rw [if_neg (fun hc => hsn hc.1)] at h
                  injection h with h
                  have hsn' : endsSlash n = false := by
                    cases hk : endsSlash n
                    · rfl
                    · exact absurd hk hsn
                  refine ⟨h.symm, rfl, hsn', hg1.2, hg2.2, hon, ?_⟩
                  cases hk : keyBelow (splitComps n) (splitComps o)
                  · rfl
                  · have := hpd (splitComps n) rfl
                      (by simpa using hk) (by simpa using Ne.symm hne)
                    rw [hfn] at this; cases this

theorem CopyFileW_ok_inv {f : Nat → Bool} {w : World} {o n : Path}
    (h : (CopyFileW f w o n).ok = true) :
    ∃ content w1, openRead w o = some content ∧ openWrite w n = .ok w1 ∧
      CopyFileW f w o n =
        ⟨true, setNode w1 (splitComps n) (.file (copyLoop f content)),
          [.openW n], false⟩ := by
  cases hr : openRead w o with
  | none => simp [CopyFileW, hr] at h
  | some content =>
    cases hw : openWrite w n with
    | error e => simp [CopyFileW, hr, hw] at h
    | ok w1 =>
      exact ⟨content, w1, rfl, rfl, by simp [CopyFileW, hr, hw]⟩

theorem keyBelow_nc_oc_false {w : World} {oc nc : Key} {cf : List Byte}
    (hof : resolve w oc = .ok (.file cf)) (hne : oc ≠ nc)
    (hfnnd : findNode w nc ≠ some .dir) : keyBelow nc oc = false := by
  cases hk : keyBelow nc oc
  · rfl
  · have := resolveAux_pre_dir
      (show resolveAux w [] oc = .ok (.file cf) from hof) nc rfl
      (by simpa using hk) (by simpa using Ne.symm hne)
    exact absurd this hfnnd

theorem keyBelow_oc_nc_false {w : World} {oc nc : Key} {cf : List Byte}
    (hof : resolve w oc = .ok (.file cf)) (hne : oc ≠ nc)
    (hpar : resolve w nc.dropLast = .ok .dir) : keyBelow oc nc = false := by
  cases hk : keyBelow oc nc
  · rfl
  · exfalso
    have hd : keyBelow oc nc.dropLast = true := keyBelow_dropLast hk hne
    by_cases heq : oc = nc.dropLast
    · rw [← heq] at hpar
      rw [hof] at hpar
      cases hpar
    · have := resolveAux_pre_dir
        (show resolveAux w [] nc.dropLast = .ok .dir from hpar) oc rfl
        (by simpa using hd) (by simpa using heq)
      have hoc : oc ≠ [] := resolve_ne_nil_of_file hof
      rw [resolve_findNode_self hof hoc] at this
      cases this

theorem rename_post {w w2 : World} {o n : Path} {cf : List Byte}
    (hof : resolve w (splitComps o) = .ok (.file cf))
    (hso : endsSlash o = false) (hpo : o ≠ [])
    (hne : splitComps o ≠ splitComps n)
    (h : renameP w o n = .ok w2) :
    IsAbsent w2 o = true ∧ IsFile w2 n = true := by
  obtain ⟨hw2, hpar, hsn, hn0, hnc, hon, hno⟩ := renameP_ok_file hof hso hne h
  subst hw2
  have hoc : splitComps o ≠ [] := resolve_ne_nil_of_file hof
  constructor
  · exact IsAbsent_of hpo hso (resolve_moveTree_old hof hoc hno)
  · exact IsFile_of hn0 hsn
      (resolve_moveTree_new hpar hnc hoc hon hno (resolve_findNode_self hof hoc))

theorem copyDelete_post {w : World} {o n : Path} {cf : List Byte} {f : Nat → Bool}
    (hof : resolve w (splitComps o) = .ok (.file cf))
    (hso : endsSlash o = false) (hpo : o ≠ [])
    (hne : splitComps o ≠ splitComps n)
    (hcok : (CopyFileW f w o n).ok = true) :
    (DeleteFile (CopyFileW f w o n).world o).ok = true ∧
    IsAbsent (DeleteFile (CopyFileW f w o n).world o).world o = true ∧
    IsFile (DeleteFile (CopyFileW f w o n).world o).world n = true := by
  obtain ⟨content, w1, hr, hw, hceq⟩ := CopyFileW_ok_inv hcok
  obtain ⟨hn0, hsn, hpar, hfnnd, hw1⟩ := openWrite_inv hw
  have hoc : splitComps o ≠ [] := resolve_ne_nil_of_file hof
  have hnc : splitComps n ≠ [] := by
    rintro hh
    rw [hh] at hfnnd
    exact hfnnd (by simp [findNode])
  have hno : keyBelow (splitComps n) (splitComps o) = false :=
    keyBelow_nc_oc_false hof hne hfnnd
  have hon : keyBelow (splitComps o) (splitComps n) = false :=
    keyBelow_oc_nc_false hof hne hpar
  have hcw : (CopyFileW f w o n).world =
      setNode w1 (splitComps n) (.file (copyLoop f content)) := by
    rw [hceq]
  have hrco : resolve (CopyFileW f w o n).world (splitComps o) =
      .ok (.file cf) := by
    rw [hcw, resolve_setNode_ne _ hno, hw1, resolve_setNode_ne _ hno]
    exact hof
  have hrcn : resolve (CopyFileW f w o n).world (splitComps n) =
      .ok (.file (copyLoop f content)) := by
    rw [hcw]
    apply resolve_setNode_self _ _ hnc
    rw [hw1, resolve_setNode_ne _
      (keyBelow_not_of_lt (by
        have := List.length_dropLast (splitComps n)
        have hl : 0 < (splitComps n).length := List.length_pos.mpr hnc
        omega))]
    exact hpar
  have hfile : IsFile (CopyFileW f w o n).world o = true :=
    IsFile_of hpo hso hrco
  rw [DeleteFile_of_file hfile]
  refine ⟨rfl, ?_, ?_⟩
  · exact IsAbsent_of hpo hso (resolve_erase_self hrco hoc)
  · refine IsFile_of (c := copyLoop f content) hn0 hsn ?_
    rw [resolve_erase_ne hon]
    exact hrcn

theorem charsPre_append (l m : List Char) : charsPre l (l ++ m) = true := by
  induction l with
  | nil => rfl
  | cons a t ih => simp [charsPre, ih]

theorem parentPath_length_lt {p : Path} (hp : p ≠ []) :
    (parentPath p).length < p.length := by
  unfold parentPath
  rw [List.length_reverse]
  have h1 := (List.dropWhile_sublist notSlash (l := p.reverse.drop 1)).length_le
  have h2 : (p.reverse.drop 1).length = p.length - 1 := by
    rw [List.length_drop, List.length_reverse]
  have h3 : 0 < p.length := List.length_pos.mpr hp
  omega

theorem parentPath_pre (p : Path) : charsPre (parentPath p) p = true := by
  have hdec : p = parentPath p ++
      (((p.reverse.drop 1).takeWhile notSlash).reverse ++ (p.reverse.take 1).reverse) := by
    unfold parentPath
    conv_lhs => rw [← List.reverse_reverse p,
      ← List.take_append_drop 1 p.reverse,
      ← List.takeWhile_append_dropWhile (p := notSlash) (l := p.reverse.drop 1)]
    rw [List.reverse_append, List.reverse_append]
    simp [List.append_assoc]
  have h2 := charsPre_append (parentPath p)
    (((p.reverse.drop 1).takeWhile notSlash).reverse ++ (p.reverse.take 1).reverse)
  rwa [← hdec] at h2

theorem CreateFolderF_fuel : ∀ (f1 f2 : Nat) (w : World) (p : Path),
    p.length < f1 → p.length < f2 →
    CreateFolderF f1 w p = CreateFolderF f2 w p := by
  intro f1
  induction f1 with
  | zero => intro f2 w p h1 h2; omega
  | succ m ih =>
    intro f2 w p h1 h2
    cases f2 with
    | zero => omega
    | succ m2 =>
      simp only [CreateFolderF]
      by_cases hg : p = [] ∨ p.getLast? ≠ some '/'
      · rw [if_pos hg, if_pos hg]
      · rw [if_neg hg, if_neg hg]
        cases hs : statP w p with
        | ok nd => rfl
        | error e =>
          dsimp only
          by_cases he : e ≠ Errno.ENOENT
          · rw [if_pos he, if_pos he]
          · rw [if_neg he, if_neg he]
            have hp : p ≠ [] := fun hh => hg (Or.inl hh)
            have hlt := parentPath_length_lt hp
            rw [ih m2 w (parentPath p) (by omega) (by omega)]

theorem CreateFolder_fail_noslash {w : World} {p : Path}
    (h : p = [] ∨ p.getLast? ≠ some '/') :
    CreateFolder w p = ⟨false, w, [], false⟩ := by
  simp only [CreateFolder, CreateFolderF]
  rw [if_pos h]

theorem CreateFolder_exists {w : World} {p : Path} {nd : Node}
    (hsl : p.getLast? = some '/')
    (hres : resolve w (splitComps p) = .ok nd) :
    CreateFolder w p = ⟨nd.isDir, w, [], false⟩ := by
  have hp : p ≠ [] := by rintro rfl; simp at hsl
  have hes : endsSlash p = true := by simp [endsSlash, hsl]
  simp only [CreateFolder, CreateFolderF]
  rw [if_neg (by push_neg; exact ⟨hp, by simp [hsl]⟩)]
  cases nd with
  | dir =>
    have hstat : statP w p = .ok .dir := by
      simp [statP, if_neg hp, hres, hes]
    rw [hstat]
  | file c =>
    have hstat : statP w p = .error .ENOTDIR := by
      simp [statP, if_neg hp, hres, hes]
    rw [hstat]
    dsimp only
    rw [if_pos (by simp)]
    rfl

theorem charsPre_refl (l : List Char) : charsPre l l = true := by
  have h := charsPre_append l []
  rwa [List.append_nil] at h

theorem ensureSlash_ne_nil {s : Path} (h : s ≠ []) : ensureSlash s ≠ [] := by
  unfold ensureSlash
  split
  · exact h
  · simp

theorem getTmp_path_some (env : Env) (w : World) (create : Bool) (s : Path) :
    ∃ b, (GetTemporaryFolder env w create (some s)).path =
      ⟨b ++ ensureSlash s, []⟩ := by
  cases env with
  | mk td tp =>
    cases td with
    | some t => cases create <;> exact ⟨ensureSlash t, rfl⟩
    | none =>
      cases tp with
      | some t => cases create <;> exact ⟨ensureSlash t, rfl⟩
      | none => cases create <;> exact ⟨ensureSlash "/tmp".toList, rfl⟩

theorem getTmp_default_pre (env : Env) (w : World) (create : Bool)
    (append : Option Path) (h1 : env.tmpdir = none) (h2 : env.tmp = none) :
    charsPre "/tmp/".toList (GetTemporaryFolder env w create append).path.str
      = true := by
  cases env with
  | mk td tp =>
    simp only at h1 h2
    subst h1; subst h2
    have hbase : ensureSlash "/tmp".toList = "/tmp/".toList := by decide
    cases append with
    | none =>
      cases create <;>
      · show charsPre "/tmp/".toList (ensureSlash "/tmp".toList ++ []) = true
        rw [hbase, List.append_nil]
        exact charsPre_refl _
    | some s =>
      cases create <;>
      · show charsPre "/tmp/".toList
          ((ensureSlash "/tmp".toList ++ ensureSlash s) ++ []) = true
        rw [hbase, List.append_nil]
        exact charsPre_append _ _

end Lemmas

section Claims

/-- C4: for every path that is empty or whose last character is not the
separator, `CreateFolder` (the `EnsureFolder` operation) returns failure,
leaves the world unchanged, and invokes no mutating OS primitive. -/
theorem CreateFolder_fails_without_sep (w : World) (p : Path)
    (h : p = [] ∨ p.getLast? ≠ some '/') :
    CreateFolder w p = ⟨false, w, [], false⟩ :=
  CreateFolder_fail_noslash h

/-- Witness for C4 at the concrete non-separator-terminated path `abc`. -/
theorem CreateFolder_fails_without_sep_witness :
    ("abc".toList = [] ∨ ("abc".toList).getLast? ≠ some '/') ∧
      CreateFolder exFileA "abc".toList = ⟨false, exFileA, [], false⟩ :=
  ⟨by decide, CreateFolder_fails_without_sep exFileA "abc".toList (by decide)⟩

/-- C5 (amended: the path must be separator-terminated, since `CreateFolder`
rejects any other path before looking at the filesystem): when a node
exists at a separator-terminated path, `CreateFolder` succeeds exactly when
that node is a directory, mutates nothing, and repeated calls return the
same result. -/
theorem CreateFolder_existing_node (w : World) (p : Path) (nd : Node)
    (hsl : p.getLast? = some '/')
    (hres : resolve w (splitComps p) = .ok nd) :
    CreateFolder w p = ⟨nd.isDir, w, [], false⟩ ∧
      CreateFolder (CreateFolder w p).world p = CreateFolder w p := by
  have h := CreateFolder_exists hsl hres
  exact ⟨h, by rw [h]; exact h⟩

/-- Witness for C5 on the existing directory `d` addressed as `d/`. -/
theorem CreateFolder_existing_node_witness :
    CreateFolder exDirD "d/".toList = ⟨true, exDirD, [], false⟩ ∧
      CreateFolder (CreateFolder exDirD "d/".toList).world "d/".toList =
        CreateFolder exDirD "d/".toList :=
  CreateFolder_existing_node exDirD "d/".toList .dir (by decide) (by decide)

/-- Counterexample for C5 as stated: at the path `d` a node exists and it
is a directory, yet `CreateFolder` fails, because the path does not end in
the separator. -/
theorem CreateFolder_existing_no_sep_counterexample :
    resolve exDirD (splitComps "d".toList) = .ok .dir ∧
      IsFolder exDirD "d".toList = true ∧
      (CreateFolder exDirD "d".toList).ok = false := by
  refine ⟨by decide, by decide, by decide⟩

/-- C9: the recursion of `CreateFolder` terminates: the argument of the
recursive call is a strictly shorter prefix of the pathname, and any fuel
exceeding the pathname length computes the same result as `CreateFolder`,
so the recursion bottoms out before the pathname is exhausted. -/
theorem CreateFolder_terminates (w : World) (p : Path) (f : Nat)
    (hp : p ≠ []) (hf : p.length < f) :
    (parentPath p).length < p.length ∧
      charsPre (parentPath p) p = true ∧
      CreateFolderF f w p = CreateFolder w p :=
  ⟨parentPath_length_lt hp, parentPath_pre p,
    CreateFolderF_fuel f (p.length + 1) w p hf (Nat.lt_succ_self _)⟩

/-- Witness for C9 on the path `/a/b/` with fuel 100. -/
theorem CreateFolder_terminates_witness :
    (parentPath "/a/b/".toList).length < ("/a/b/".toList).length ∧
      charsPre (parentPath "/a/b/".toList) "/a/b/".toList = true ∧
      CreateFolderF 100 exDirD "/a/b/".toList =
        CreateFolder exDirD "/a/b/".toList :=
  CreateFolder_terminates exDirD "/a/b/".toList 100 (by decide) (by decide)

/-- C10: `IsFolder`, `IsFile` and `IsAbsent` are pairwise mutually
exclusive on every path, and when stat fails with an error other than
`ENOENT` (such as `ENOTDIR`) all three return false, so they are not
exhaustive. -/
theorem classifiers_exclusive (w : World) (p : Path) :
    (¬(IsFolder w p = true ∧ IsFile w p = true) ∧
     ¬(IsFolder w p = true ∧ IsAbsent w p = true) ∧
     ¬(IsFile w p = true ∧ IsAbsent w p = true)) ∧
    (∀ e, statP w p = .error e → e ≠ .ENOENT →
      IsFolder w p = false ∧ IsFile w p = false ∧ IsAbsent w p = false) := by
  constructor
  · unfold IsFolder IsFile IsAbsent
    cases statP w p with
    | ok nd => cases nd <;> simp
    | error e => cases e <;> simp
  · intro e he hne
    unfold IsFolder IsFile IsAbsent
    rw [he]
    cases e
    · exact absurd rfl hne
    all_goals simp

/-- Witness for C10: with a file at `a`, stat of `a/b` fails with
`ENOTDIR` and all three classifiers return false. -/
theorem classifiers_exclusive_witness :
    statP exFileA "a/b".toList = .error .ENOTDIR ∧
      (IsFolder exFileA "a/b".toList = false ∧
       IsFile exFileA "a/b".toList = false ∧
       IsAbsent exFileA "a/b".toList = false) :=
  ⟨by decide,
    (classifiers_exclusive exFileA "a/b".toList).2 .ENOTDIR (by decide)
      (by decide)⟩

/-- C6: `DeleteFile` on a path not classified as a file, and
`DeleteEmptyFolder` on a path not classified as a folder, fail without
invoking `unlink` or `rmdir` (empty call list, unchanged world), with the
debug-build `ASSERT` fired and an ordinary failure returned. -/
theorem delete_precondition_checked (w : World) (p q : Path) :
    (IsFile w p = false → DeleteFile w p = ⟨false, w, [], true⟩) ∧
    (IsFolder w q = false → DeleteEmptyFolder w q = ⟨false, w, [], true⟩) := by
  constructor
  · intro h
    simp [DeleteFile, h]
  · intro h
    simp [DeleteEmptyFolder, h]

/-- Witness for C6: deleting the directory `d` as a file, and the absent
path `x` as a folder, both fail with the assert fired and no OS call. -/
theorem delete_precondition_checked_witness :
    IsFile exDirD "d".toList = false ∧ IsFolder exDirD "x".toList = false ∧
      DeleteFile exDirD "d".toList = ⟨false, exDirD, [], true⟩ ∧
      DeleteEmptyFolder exDirD "x".toList = ⟨false, exDirD, [], true⟩ :=
  ⟨by decide, by decide,
    (delete_precondition_checked exDirD "d".toList "x".toList).1 (by decide),
    (delete_precondition_checked exDirD "d".toList "x".toList).2 (by decide)⟩

/-- C7 (amended: restricted to environments in which neither `TMPDIR` nor
`TMP` is set, since those variables may point anywhere): every path
`GetTemporaryFolder` returns starts with `/tmp/` and so satisfies
`IsTemporaryPath`, and `IsTemporaryPath` rejects the non-temporary path
`/home/user/doc.txt`. -/
theorem IsTemporaryPath_default (env : Env) (w : World) (create : Bool)
    (append : Option Path) (h1 : env.tmpdir = none) (h2 : env.tmp = none) :
    IsTemporaryPath (GetTemporaryFolder env w create append).path.str = true ∧
      IsTemporaryPath "/home/user/doc.txt".toList = false := by
  constructor
  · unfold IsTemporaryPath
    rw [getTmp_default_pre env w create append h1 h2]
    rfl
  · decide

/-- Witness for C7 with the default environment, folder creation on, and a
caller-supplied segment. -/
theorem IsTemporaryPath_default_witness :
    IsTemporaryPath
        (GetTemporaryFolder envNone exTmp true (some "app".toList)).path.str
      = true ∧
      IsTemporaryPath "/home/user/doc.txt".toList = false :=
  IsTemporaryPath_default envNone exTmp true (some "app".toList)
    (by decide) (by decide)

/-- Counterexample for C7 as stated: with `TMPDIR=/home/user/mytmp` the
call succeeds and returns a path that `IsTemporaryPath` rejects. -/
theorem IsTemporaryPath_env_counterexample :
    (GetTemporaryFolder envHome exDirD false none).ok = true ∧
      IsTemporaryPath (GetTemporaryFolder envHome exDirD false none).path.str
        = false :=
  ⟨by decide, by decide⟩

/-- C8: after a successful `GetAppTempFolder`, the generated path is stored
in the process-wide cache, and any later call (any application name,
process id, timestamp, environment or world) returns the identical path
from the cache, leaving both the cache and the world untouched. -/
theorem GetAppTempFolder_cached (a1 : Path) (p1 t1 : Nat) (cache : Path)
    (env1 : Env) (w1 : World)
    (hok : (GetAppTempFolder a1 p1 t1 cache env1 w1).ok = true)
    (a2 : Path) (p2 t2 : Nat) (env2 : Env) (w2 : World) :
    (GetAppTempFolder a2 p2 t2 (GetAppTempFolder a1 p1 t1 cache env1 w1).cache
        env2 w2).ok = true ∧
    (GetAppTempFolder a2 p2 t2 (GetAppTempFolder a1 p1 t1 cache env1 w1).cache
        env2 w2).path.str =
      (GetAppTempFolder a1 p1 t1 cache env1 w1).path.str ∧
    (GetAppTempFolder a2 p2 t2 (GetAppTempFolder a1 p1 t1 cache env1 w1).cache
        env2 w2).cache =
      (GetAppTempFolder a1 p1 t1 cache env1 w1).cache ∧
    (GetAppTempFolder a2 p2 t2 (GetAppTempFolder a1 p1 t1 cache env1 w1).cache
        env2 w2).world = w2 := by
  have hkey : (GetAppTempFolder a1 p1 t1 cache env1 w1).cache ≠ [] ∧
      (GetAppTempFolder a1 p1 t1 cache env1 w1).path.str =
        (GetAppTempFolder a1 p1 t1 cache env1 w1).cache := by
    by_cases hc : cache ≠ []
    · simp only [GetAppTempFolder, if_pos hc]
      exact ⟨hc, by simp [setPathname1, Pathname.str]⟩
    · push_neg at hc
      subst hc
      simp only [GetAppTempFolder] at hok ⊢
      rw [if_neg (fun hcon : ([] : Path) ≠ [] => hcon rfl)] at hok ⊢
      cases hgt : (GetTemporaryFolder env1 w1 true
          (some (a1 ++ ('-' :: Nat.toDigits 10 p1)
            ++ ('-' :: Nat.toDigits 10 t1)))).ok with
      | false =>
        rw [hgt] at hok
        simp at hok
      | true =>
        rw [if_pos rfl]
        obtain ⟨b, hb⟩ := getTmp_path_some env1 w1 true
          (a1 ++ ('-' :: Nat.toDigits 10 p1) ++ ('-' :: Nat.toDigits 10 t1))
        refine ⟨?_, rfl⟩
        dsimp only
        rw [hb]
        simp only [Pathname.str, List.append_nil]
        intro hcon
        rcases List.append_eq_nil.mp hcon with ⟨-, h2⟩
        exact ensureSlash_ne_nil (by simp) h2
  rcases hkey with ⟨hne, heq⟩
  have hsecond : ∀ (c2 : Path), c2 ≠ [] →
      GetAppTempFolder a2 p2 t2 c2 env2 w2 = ⟨true, setPathname1 c2, c2, w2⟩ := by
    intro c2 hc2
    simp only [GetAppTempFolder, if_pos hc2]
  rw [hsecond _ hne]
  refine ⟨rfl, ?_, rfl, rfl⟩
  rw [heq]
  simp [setPathname1, Pathname.str]

/-- Witness for C8: a concrete first call that creates `/tmp/ap-1-2/`,
then a second call with different name, pid, timestamp and world. -/
theorem GetAppTempFolder_cached_witness :
    (GetAppTempFolder "xy".toList 3 4
        (GetAppTempFolder "ap".toList 1 2 [] envNone exTmp).cache
        envNone exFileA).ok = true ∧
    (GetAppTempFolder "xy".toList 3 4
        (GetAppTempFolder "ap".toList 1 2 [] envNone exTmp).cache
        envNone exFileA).path.str =
      (GetAppTempFolder "ap".toList 1 2 [] envNone exTmp).path.str ∧
    (GetAppTempFolder "xy".toList 3 4
        (GetAppTempFolder "ap".toList 1 2 [] envNone exTmp).cache
        envNone exFileA).cache =
      (GetAppTempFolder "ap".toList 1 2 [] envNone exTmp).cache ∧
    (GetAppTempFolder "xy".toList 3 4
        (GetAppTempFolder "ap".toList 1 2 [] envNone exTmp).cache
        envNone exFileA).world = exFileA :=
  GetAppTempFolder_cached "ap".toList 1 2 [] envNone exTmp (by decide)
    "xy".toList 3 4 envNone exFileA

/-- C2: when the source opens for reading with content `content`, the
destination opens for writing, and source and destination denote distinct
locations, `CopyFile` succeeds, the destination content equals the source
content byte for byte, and the source is unchanged; `content` is
arbitrary, covering size 0, exactly one 256-byte chunk, and more than one
chunk. -/
theorem CopyFile_content_eq (w : World) (o n : Path) (content : List Byte)
    (w1 : World) (hr : openRead w o = some content)
    (hw : openWrite w n = .ok w1)
    (hne : splitComps o ≠ splitComps n) :
    (CopyFile w o n).ok = true ∧
      fileContent (CopyFile w o n).world n = some content ∧
      fileContent (CopyFile w o n).world o = some content := by
  have hstat := openRead_inv hr
  obtain ⟨hpo, hso, hof⟩ := statP_ok_file_inv hstat
  obtain ⟨hn0, hsn, hpar, hfnnd, hw1⟩ := openWrite_inv hw
  have hnc : splitComps n ≠ [] := by
    rintro hh
    rw [hh] at hfnnd
    exact hfnnd (by simp [findNode])
  have hno : keyBelow (splitComps n) (splitComps o) = false :=
    keyBelow_nc_oc_false hof hne hfnnd
  have hcw : CopyFile w o n =
      ⟨true, setNode w1 (splitComps n)
        (.file (copyLoop (fun _ => false) content)), [.openW n], false⟩ := by
    simp [CopyFile, CopyFileW, hr, hw]
  rw [hcw, copyLoop_nofault]
  refine ⟨rfl, ?_, ?_⟩
  · have hres : resolve (setNode w1 (splitComps n) (.file content))
        (splitComps n) = .ok (.file content) := by
      apply resolve_setNode_self _ _ hnc
      rw [hw1, resolve_setNode_ne _
        (keyBelow_not_of_lt (by
          have := List.length_dropLast (splitComps n)
          have hl : 0 < (splitComps n).length := List.length_pos.mpr hnc
          omega))]
      exact hpar
    simp only [fileContent, statP_noslash hn0 hsn, hres]
  · have hres : resolve (setNode w1 (splitComps n) (.file content))
        (splitComps o) = .ok (.file content) := by
      rw [resolve_setNode_ne _ hno, hw1, resolve_setNode_ne _ hno]
      exact hof
    simp only [fileContent, statP_noslash hpo hso, hres]

/-- Witness for C2: copying the 300-byte file `a` (more than one chunk)
onto the fresh path `b/c`. -/
theorem CopyFile_content_eq_witness :
    (CopyFile exCopySrc "a".toList "b/c".toList).ok = true ∧
      fileContent (CopyFile exCopySrc "a".toList "b/c".toList).world
          "b/c".toList = some (List.replicate 300 7) ∧
      fileContent (CopyFile exCopySrc "a".toList "b/c".toList).world
          "a".toList = some (List.replicate 300 7) :=
  CopyFile_content_eq exCopySrc "a".toList "b/c".toList
    (List.replicate 300 7)
    (setNode exCopySrc (splitComps "b/c".toList) (.file []))
    (by decide) (by decide) (by decide)

/-- C3: whenever both the source and the destination streams open
successfully, `CopyFile` returns success for every pattern of per-chunk
write failures (the write status is never consulted); concretely, failing
the write of the first 256-byte chunk of a 300-byte copy leaves a 44-byte
truncated destination while the call still reports success. -/
theorem CopyFile_ignores_write_status :
    (∀ (f : Nat → Bool) (w : World) (o n : Path) (content : List Byte)
        (w1 : World), openRead w o = some content → openWrite w n = .ok w1 →
      (CopyFileW f w o n).ok = true) ∧
    ((CopyFileW (fun i => i == 0) exCopySrc "a".toList "b/c".toList).ok
        = true ∧
      fileContent
          (CopyFileW (fun i => i == 0) exCopySrc "a".toList "b/c".toList).world
          "b/c".toList ≠ fileContent exCopySrc "a".toList) := by
  refine ⟨?_, by decide, by decide⟩
  intro f w o n content w1 hr hw
  simp [CopyFileW, hr, hw]

/-- Witness for C3: a failing write on the second chunk still reports
success. -/
theorem CopyFile_ignores_write_status_witness :
    (CopyFileW (fun i => i == 1) exCopySrc "a".toList "b/c".toList).ok
      = true :=
  CopyFile_ignores_write_status.1 (fun i => i == 1) exCopySrc
    "a".toList "b/c".toList (List.replicate 300 7)
    (setNode exCopySrc (splitComps "b/c".toList) (.file []))
    (by decide) (by decide)

/-- C1 (amended: the postcondition requires old and new to denote distinct
locations, since renaming a file onto itself succeeds and leaves the file
in place): with a file at `old`, `MoveFile` first attempts `rename` and on
success makes no other call; a rename failure other than `EXDEV` fails with
no fallback and no other call; exactly an `EXDEV` failure falls back to
`CopyFile` followed by `DeleteFile`; and after any successful move between
distinct locations, `IsAbsent(old)` and `IsFile(new)` hold. -/
theorem MoveFile_spec (w : World) (o n : Path) (hf : IsFile w o = true) :
    (∀ w2, renameP w o n = .ok w2 →
       MoveFile w o n = ⟨true, w2, [.rename o n], false⟩) ∧
    (∀ e, renameP w o n = .error e → e ≠ .EXDEV →
       MoveFile w o n = ⟨false, w, [.rename o n], false⟩) ∧
    (renameP w o n = .error .EXDEV →
       MoveFile w o n =
         (if (CopyFile w o n).ok then
            ⟨(DeleteFile (CopyFile w o n).world o).ok,
             (DeleteFile (CopyFile w o n).world o).world,
             .rename o n :: ((CopyFile w o n).calls ++
               (DeleteFile (CopyFile w o n).world o).calls),
             (DeleteFile (CopyFile w o n).world o).assertFailed⟩
          else
            ⟨false, (CopyFile w o n).world, .rename o n :: (CopyFile w o n).calls,
             (CopyFile w o n).assertFailed⟩)) ∧
    (splitComps o ≠ splitComps n → (MoveFile w o n).ok = true →
       IsAbsent (MoveFile w o n).world o = true ∧
       IsFile (MoveFile w o n).world n = true) := by
  have hmv : MoveFile w o n =
      (match renameP w o n with
       | .ok w2 => ⟨true, w2, [.rename o n], false⟩
       | .error e =>
         if e = .EXDEV then
           if (CopyFile w o n).ok then
             ⟨(DeleteFile (CopyFile w o n).world o).ok,
              (DeleteFile (CopyFile w o n).world o).world,
              .rename o n :: ((CopyFile w o n).calls ++
                (DeleteFile (CopyFile w o n).world o).calls),
              (DeleteFile (CopyFile w o n).world o).assertFailed⟩
           else
             ⟨false, (CopyFile w o n).world,
              .rename o n :: (CopyFile w o n).calls,
              (CopyFile w o n).assertFailed⟩
         else ⟨false, w, [.rename o n], false⟩) := by
    simp [MoveFile, hf]
  refine ⟨?_, ?_, ?_, ?_⟩
  · intro w2 h
    rw [hmv, h]
  · intro e h hne
    rw [hmv, h]
    dsimp only
    rw [if_neg hne]
  · intro h
    rw [hmv, h]
    dsimp only
    rw [if_pos rfl]
  · intro hne hok
    obtain ⟨hpo, hso, cf, hof⟩ := IsFile_inv hf
    rw [hmv] at hok ⊢
    cases hrn : renameP w o n with
    | ok w2 =>
      exact rename_post hof hso hpo hne hrn
    | error e =>
      rw [hrn] at hok
      dsimp only at hok ⊢
      by_cases hex : e = .EXDEV
      · subst hex
        rw [if_pos rfl] at hok ⊢
        cases hcok : (CopyFile w o n).ok with
        | false =>
          rw [hcok] at hok
          simp at hok
        | true =>
          rw [if_pos rfl]
          have hpost := copyDelete_post (f := fun _ => false)
            hof hso hpo hne hcok
          exact ⟨hpost.2.1, hpost.2.2⟩
      · rw [if_neg hex] at hok
        simp at hok

/-- Witness for C1: a concrete cross-device move of file `a` (device 0) to
`b/c` (device 1); the fallback copies then deletes, after which the old
path is absent and the new path is a file. -/
theorem MoveFile_spec_witness :
    IsAbsent (MoveFile exTwoDev "a".toList "b/c".toList).world "a".toList
        = true ∧
      IsFile (MoveFile exTwoDev "a".toList "b/c".toList).world "b/c".toList
        = true :=
  (MoveFile_spec exTwoDev "a".toList "b/c".toList (by decide)).2.2.2
    (by decide) (by decide)

/-- Counterexample for C1 as stated: moving the existing file `a` onto the
same path `a` succeeds (rename of identical paths is a successful no-op),
yet `IsAbsent(old)` fails afterwards. -/
theorem MoveFile_self_counterexample :
    IsFile exFileA "a".toList = true ∧
      (MoveFile exFileA "a".toList "a".toList).ok = true ∧
      IsAbsent (MoveFile exFileA "a".toList "a".toList).world "a".toList
        = false :=
  ⟨by decide, by decide, by decide⟩

end Claims

end UnixFS
